import Mathlib

/-!
Verification of the search engine of `go-locate` (`internal/search/search.go`).

Strings are modelled as lists of Unicode code points (`List Nat`), the view
Go's `range` over a string provides.  Where the Go code indexes the raw bytes
of a string (the inner loop of `fuzzyMatch`), the UTF-8 encoding is made
explicit with `utf8Encode`.  Paths use `/` (code 47) as separator, as on the
Unix targets of the tool.
-/

namespace GoLocate

/-- ASCII case mapping, the restriction of Go's `unicode.ToLower` to the
ASCII range; code points outside `A`..`Z` are returned unchanged.  Theorems
relying on full `strings.ToLower` behaviour are stated for inputs on which
this restriction agrees with Go. -/
def toLowerRune (c : Nat) : Nat := if 65 ≤ c ∧ c ≤ 90 then c + 32 else c

/-- `strings.ToLower`, rune by rune. -/
def mapToLower (s : List Nat) : List Nat := s.map toLowerRune

/-- UTF-8 encoding of one code point (RFC 3629 layout, as produced by Go). -/
def utf8EncodeChar (c : Nat) : List Nat :=
  if c < 128 then [c]
  else if c < 2048 then [192 + c / 64, 128 + c % 64]
  else if c < 65536 then [224 + c / 4096, 128 + (c / 64) % 64, 128 + c % 64]
  else [240 + c / 262144, 128 + (c / 4096) % 64, 128 + (c / 64) % 64, 128 + c % 64]

/-- The byte sequence of a string given as its code points. -/
def utf8Encode : List Nat → List Nat
  | [] => []
  | c :: rest => utf8EncodeChar c ++ utf8Encode rest

/-- `strings.HasPrefix s pre`. -/
def goStartsWith : List Nat → List Nat → Bool
  | _, [] => true
  | [], _ :: _ => false
  | a :: s, b :: t => a == b && goStartsWith s t

/-- `strings.Contains s sub`: `sub` occurs contiguously inside `s`. -/
def goContains : List Nat → List Nat → Bool
  | [], sub => sub == []
  | a :: rest, sub => goStartsWith (a :: rest) sub || goContains rest sub

/-- `strings.TrimPrefix s pre`. -/
def goTrimPre (s pre : List Nat) : List Nat :=
  if goStartsWith s pre then s.drop pre.length else s

/-- `strings.Count s c` for a one-character separator `c`: the number of
occurrences of `c` in `s`. -/
def countChar (c : Nat) (s : List Nat) : Nat := s.countP (fun b => b == c)

/-- `filepath.Base`: strip trailing separators, then keep everything after
the last separator; empty input gives `"."`, all-separator input gives `"/"`. -/
def goBase (path : List Nat) : List Nat :=
  if path = [] then [46]
  else
    let p := (path.reverse.dropWhile (fun c => c == 47)).reverse
    let q := (p.reverse.takeWhile (fun c => c != 47)).reverse
    if q = [] then [47] else q

/-- Helper for `goExt`: scan the reversed path; stop at a separator (no
extension) or at a dot (extension found, `acc` holds the characters after
the dot in original order). -/
def goExtAux : List Nat → List Nat → List Nat
  | [], _ => []
  | c :: rest, acc =>
    if c == 47 then []
    else if c == 46 then 46 :: acc
    else goExtAux rest (c :: acc)

/-- `filepath.Ext`: the suffix starting at the final dot in the last path
element, or empty. -/
def goExt (path : List Nat) : List Nat := goExtAux path.reverse []

/-- Drop one leading dot, modelling `strings.TrimPrefix(ext, ".")` as used in
the extension filter. -/
def dropDot : List Nat → List Nat
  | 46 :: rest => rest
  | s => s

/-- `strings.EqualFold` under the ASCII case mapping. -/
def goEqFold (a b : List Nat) : Bool := mapToLower a == mapToLower b

/-! ## fuzzyMatch (search.go lines 256-280)

`fuzzyMatch(text, pattern)` ranges over `pattern` (decoding runes) while
indexing `text` by raw bytes (`rune(text[textIdx])`).  Accordingly the model
takes the pattern as its rune list and the text as its byte list. -/

/-- The inner `for textIdx < len(text)` loop of `fuzzyMatch`: scan the
remaining text bytes for one equal to `c`; on success return the bytes after
the match. -/
def fuzzyFind (c : Nat) : List Nat → Option (List Nat)
  | [] => none
  | b :: rest => if b == c then some rest else fuzzyFind c rest

/-- The outer `for _, patternChar := range pattern` loop of `fuzzyMatch`. -/
def fuzzyLoop : List Nat → List Nat → Bool
  | _, [] => true
  | text, c :: ps =>
    match fuzzyFind c text with
    | none => false
    | some rest => fuzzyLoop rest ps

/-- `fuzzyMatch` (search.go line 256): `text` is the byte list of the haystack
string, `pattern` the rune list of the needle. -/
def fuzzyMatch (text pattern : List Nat) : Bool :=
  if pattern = [] then true
  else if text = [] then false
  else fuzzyLoop text pattern

/-- The advanced-mode name check of `matches` (search.go line 212):
`fuzzyMatch(strings.ToLower(filename), strings.ToLower(pattern))`, with the
lowered filename viewed through its UTF-8 bytes. -/
def advancedNameMatch (pattern filename : List Nat) : Bool :=
  fuzzyMatch (utf8Encode (mapToLower filename)) (mapToLower pattern)

/-! ## shouldExclude (search.go lines 187-203) -/

/-- The fixed default-excluded system directories (search.go line 195):
`"/proc"`, `"/sys"`, `"/dev"`, `"/tmp"`. -/
def sysDirs : List (List Nat) :=
  [[47, 112, 114, 111, 99], [47, 115, 121, 115], [47, 100, 101, 118], [47, 116, 109, 112]]

/-- `shouldExclude` (search.go line 187): any configured exclude token that is
a substring of the path, or a path beginning with a default system
directory, excludes the entry. -/
def shouldExclude (exclude : List (List Nat)) (path : List Nat) : Bool :=
  exclude.any (fun e => goContains path e) || sysDirs.any (fun d => goStartsWith path d)

/-! ## Glob matching

The non-advanced name check calls the Go standard library's
`path/filepath.Match`, which is not part of this repository.  The model below
implements the documented contract of `Match` on Unix: a pattern is a
sequence of terms — `*` (any run of non-separator characters), `?` (one
non-separator character), `[...]`/`[^...]` (a non-empty character class of
characters and `lo-hi` ranges, `\` escaping inside), `\c` (literal `c`), or a
literal character — matching the whole name, and the only error is
`ErrBadPattern`, reported exactly for malformed patterns. -/

/-- Read one class character (Go `getEsc`): bare `-`, `]`, end of pattern, a
trailing escape, or nothing left after the character are malformed. -/
def readRangeChar : List Nat → Option (Nat × List Nat)
  | [] => none
  | 45 :: _ => none
  | 93 :: _ => none
  | 92 :: rest =>
    match rest with
    | [] => none
    | c :: rest2 => if rest2 = [] then none else some (c, rest2)
  | c :: rest => if rest = [] then none else some (c, rest)

/-- Parse the ranges of a character class up to the closing `]`; at least one
range is required.  `nr` counts ranges read so far; the fuel argument bounds
the recursion (each step consumes pattern characters, so `length + 1` fuel at
the call site always suffices). -/
def parseRangesFuel : Nat → Nat → List Nat → Option (List (Nat × Nat) × List Nat)
  | 0, _, _ => none
  | _ + 1, nr, 93 :: rest => if 0 < nr then some ([], rest) else none
  | fuel + 1, nr, p =>
    match readRangeChar p with
    | none => none
    | some (lo, rest1) =>
      match rest1 with
      | 45 :: rest2 =>
        (match readRangeChar rest2 with
         | none => none
         | some (hi, rest3) =>
           (parseRangesFuel fuel (nr + 1) rest3).map (fun x => ((lo, hi) :: x.1, x.2)))
      | _ =>
        (parseRangesFuel fuel (nr + 1) rest1).map (fun x => ((lo, lo) :: x.1, x.2))

/-- Parse a character class body (after the opening `[`): optional `^`
negation, then the ranges.  Returns `(negated, ranges, rest-of-pattern)`. -/
def parseClass (p : List Nat) : Option (Bool × List (Nat × Nat) × List Nat) :=
  match p with
  | 94 :: rest => (parseRangesFuel (rest.length + 1) 0 rest).map (fun x => (true, x.1, x.2))
  | _ => (parseRangesFuel (p.length + 1) 0 p).map (fun x => (false, x.1, x.2))

/-- Does some range of the class contain the character? -/
def inRanges (ranges : List (Nat × Nat)) (c : Nat) : Bool :=
  ranges.any (fun r => decide (r.1 ≤ c) && decide (c ≤ r.2))

/-- Glob matching of a (well-formed) pattern against a name, by fuel-bounded
recursion; every recursive call shrinks `pattern.length + name.length`, so
`pattern.length + name.length + 1` fuel at the call site always suffices. -/
def matchFuel : Nat → List Nat → List Nat → Bool
  | 0, _, _ => false
  | _ + 1, [], n => n.isEmpty
  | fuel + 1, 42 :: ps, n =>
    matchFuel fuel ps n ||
      (match n with
       | [] => false
       | c :: rest => c != 47 && matchFuel fuel (42 :: ps) rest)
  | fuel + 1, 63 :: ps, n =>
    (match n with
     | [] => false
     | c :: rest => c != 47 && matchFuel fuel ps rest)
  | fuel + 1, 91 :: ps, n =>
    (match parseClass ps with
     | none => false
     | some (neg, ranges, ps2) =>
       match n with
       | [] => false
       | c :: rest => (inRanges ranges c != neg) && matchFuel fuel ps2 rest)
  | fuel + 1, 92 :: ps, n =>
    (match ps, n with
     | e :: ps2, d :: rest => e == d && matchFuel fuel ps2 rest
     | _, _ => false)
  | fuel + 1, c :: ps, n =>
    (match n with
     | [] => false
     | d :: rest => c == d && matchFuel fuel ps rest)

/-- Whole-name glob matching for a well-formed pattern. -/
def matchPure (p n : List Nat) : Bool := matchFuel (p.length + n.length + 1) p n

/-- Syntactic validity of a glob pattern (fuel-bounded as above). -/
def patValidFuel : Nat → List Nat → Bool
  | 0, _ => false
  | _ + 1, [] => true
  | fuel + 1, 91 :: ps =>
    (match parseClass ps with
     | none => false
     | some (_, _, ps2) => patValidFuel fuel ps2)
  | fuel + 1, 92 :: ps =>
    (match ps with
     | [] => false
     | _ :: ps2 => patValidFuel fuel ps2)
  | fuel + 1, _ :: ps => patValidFuel fuel ps

/-- Syntactic validity of a glob pattern. -/
def patValid (p : List Nat) : Bool := patValidFuel (p.length + 1) p

/-- `filepath.Match pattern name` per its documentation: `ErrBadPattern`
(modelled as `Except.error ()`) exactly on malformed patterns, otherwise
whether the pattern matches the whole name. -/
def goMatch (p n : List Nat) : Except Unit Bool :=
  if patValid p then Except.ok (matchPure p n) else Except.error ()

/-! ## Config, matches and the walk callback (search.go lines 20-35, 128-253) -/

/-- `search.Config` (search.go line 21).  Go's `int` fields are modelled as
`Int`; string fields as rune lists; `Include` is renamed `includeDirs`. -/
structure Config where
  pattern : List Nat
  advanced : Bool
  extensions : List (List Nat)
  size : List Nat
  mtime : List Nat
  content : List Nat
  exclude : List (List Nat)
  includeDirs : List (List Nat)
  threads : Int
  depth : Int
  followLinks : Bool
  maxResults : Int
  verbose : Bool
deriving DecidableEq

/-- A concrete configuration used by witnesses: pattern `"x"` (code 120),
depth 1, max results 10, all lists empty. -/
def sampleConfig : Config :=
  { pattern := [120], advanced := false, extensions := [], size := [], mtime := [],
    content := [], exclude := [], includeDirs := [], threads := 0, depth := 1,
    followLinks := false, maxResults := 10, verbose := false }

/-- The non-advanced name check of `matches` (search.go lines 216-225): a
case-sensitive `filepath.Match` first; if it errors or does not match, retry
with both pattern and filename lowered, ignoring the second error. -/
def nameMatchBasic (pattern filename : List Nat) : Bool :=
  match goMatch pattern filename with
  | Except.ok true => true
  | _ =>
    match goMatch (mapToLower pattern) (mapToLower filename) with
    | Except.ok m => m
    | Except.error _ => false

/-- The extension filter of `matches` (search.go lines 228-240): when the
allow-list is non-empty, the filename's extension (without its dot) must
equal some allowed extension case-insensitively. -/
def extAllowed (extensions : List (List Nat)) (filename : List Nat) : Bool :=
  extensions.any (fun allowed => goEqFold (dropDot (goExt filename)) allowed)

/-- `matches` (search.go line 206): name check (fuzzy in advanced mode, glob
otherwise) on the base filename, then the extension filter; the `Size` and
`Mtime` fields are read by no check (search.go lines 242-250 are TODO
no-ops).  (`matches` is a reserved word in Lean, hence the `go` marker.) -/
def goMatches (cfg : Config) (path : List Nat) : Bool :=
  let filename := goBase path
  let nameOk : Bool :=
    if cfg.advanced then advancedNameMatch cfg.pattern filename
    else nameMatchBasic cfg.pattern filename
  if !nameOk then false
  else if cfg.extensions ≠ [] then extAllowed cfg.extensions filename
  else true

/-- What the `filepath.Walk` callback (search.go lines 133-179) does with one
accessible entry: prune the subtree, move on without emitting, or emit a
result. -/
inductive StepAction where
  | skipDir : StepAction
  | next : StepAction
  | emit : StepAction
deriving DecidableEq

/-- The per-entry decision of the walk callback (search.go lines 142-178):
exclusion check, then the depth check (`strings.Count` of separators in the
path after `strings.TrimPrefix` of the root, compared against a positive
configured depth), then `matches`. -/
def walkStep (cfg : Config) (root path : List Nat) (isDir : Bool) : StepAction :=
  if shouldExclude cfg.exclude path then (if isDir then StepAction.skipDir else StepAction.next)
  else if decide (0 < cfg.depth) && decide ((countChar 47 (goTrimPre path root) : Int) > cfg.depth) then
    (if isDir then StepAction.skipDir else StepAction.next)
  else if goMatches cfg path then StepAction.emit
  else StepAction.next

/-! ## New (search.go lines 54-74) -/

/-- The two construction-time validation failures of `New`. -/
inductive NewError where
  | nilConfig : NewError
  | emptyPattern : NewError
deriving DecidableEq

/-- `New` (search.go line 55), modelled as returning the normalized
configuration held by the `Searcher` on success.  `runtime.NumCPU()` is
passed in as `numCPU` (it is documented to be at least 1). -/
def goNew (cfg : Option Config) (numCPU : Int) : Except NewError Config :=
  match cfg with
  | none => Except.error NewError.nilConfig
  | some c =>
    if c.pattern = [] then Except.error NewError.emptyPattern
    else Except.ok { c with threads := if c.threads ≤ 0 then numCPU else c.threads }

/-! ## The Search engine as a transition system (search.go lines 77-106)

`Search` starts one collector goroutine draining the buffered result channel
into `results` under a mutex (appending only while `len(results) <
MaxResults`), one worker per root, then `wg.Wait()`s, closes the channel and
returns `results`.  The model abstracts each worker by the list of results it
will submit, in order, and makes every shared-memory interaction a separate
transition; `return results` is the `ret` transition, enabled as soon as the
channel has been closed. -/

/-- `defaultResultsBufferSize` (search.go line 17): capacity of the result
channel. -/
def defaultResultsBufferSize : Nat := 100

/-- `search.Result` (search.go line 38); the modification time is modelled as
an integer timestamp. -/
structure Result where
  path : List Nat
  size : Int
  modTime : Int
  isDir : Bool
  mode : List Nat
deriving DecidableEq

/-- A state of a running `Search` call: per-worker pending submissions, the
channel buffer, whether the channel is closed, the collector's list, and the
value returned by `Search` (once it returns). -/
structure EngineState where
  workers : List (List Result)
  buf : List Result
  closed : Bool
  results : List Result
  ret : Option (List Result)
deriving DecidableEq

/-- The state at the start of `Search`, given what each worker will submit. -/
def initState (ws : List (List Result)) : EngineState :=
  { workers := ws, buf := [], closed := false, results := [], ret := none }

/-- One shared-memory step of `Search`:
* `submit`: a worker sends its next result on the channel (blocking while the
  buffer is full, line 172);
* `recv`: the collector receives one result and appends it only while the
  list is shorter than `MaxResults` (lines 83-89);
* `close`: once every worker has submitted everything (`wg.Wait()`, line
  102), the channel is closed (line 103);
* `ret`: after the close, `Search` returns the current `results` (line 105)
  — nothing makes it wait for the collector to finish draining. -/
inductive EStep (maxResults : Int) : EngineState → EngineState → Prop
  | submit (s : EngineState) (i : Nat) (r : Result) (rest : List Result)
      (hw : s.workers[i]? = some (r :: rest))
      (hbuf : s.buf.length < defaultResultsBufferSize) :
      EStep maxResults s
        { s with workers := s.workers.set i rest, buf := s.buf ++ [r] }
  | recv (s : EngineState) (r : Result) (rest : List Result)
      (hb : s.buf = r :: rest) :
      EStep maxResults s
        { s with buf := rest, results := (if (s.results.length : Int) < maxResults then s.results ++ [r] else s.results) }
  | close (s : EngineState)
      (hw : ∀ w ∈ s.workers, w = [])
      (hcl : s.closed = false) :
      EStep maxResults s { s with closed := true }
  | ret (s : EngineState)
      (hcl : s.closed = true)
      (hr : s.ret = none) :
      EStep maxResults s { s with ret := some s.results }

/-- Reachability through engine steps. -/
def EReach (maxResults : Int) : EngineState → EngineState → Prop :=
  Relation.ReflTransGen (EStep maxResults)

/-! ## Library lemmas: prefixes and substrings -/

/-- `goStartsWith s d` decides that `d` is a string prefix of `s`. -/
theorem goStartsWith_iff (s d : List Nat) : goStartsWith s d = true ↔ ∃ t, d ++ t = s := by
  induction d generalizing s with
  | nil => simp [goStartsWith]
  | cons b bs ih =>
    cases s with
    | nil => simp [goStartsWith]
    | cons a as =>
      simp only [goStartsWith, Bool.and_eq_true, beq_iff_eq, ih, List.cons_append,
        List.cons.injEq]
      constructor
      · rintro ⟨hab, t, ht⟩
        exact ⟨t, hab.symm, ht⟩
      · rintro ⟨t, hba, ht⟩
        exact ⟨hba.symm, t, ht⟩

/-- `goContains s e` decides that `e` occurs contiguously inside `s`. -/
theorem goContains_iff (s e : List Nat) : goContains s e = true ↔ ∃ u v, u ++ e ++ v = s := by
  induction s with
  | nil =>
    simp only [goContains, beq_iff_eq]
    constructor
    · rintro rfl; exact ⟨[], [], rfl⟩
    · rintro ⟨u, v, h⟩
      rcases List.append_eq_nil.mp h with ⟨h1, h2⟩
      exact (List.append_eq_nil.mp h1).2
  | cons a rest ih =>
    simp only [goContains, Bool.or_eq_true, goStartsWith_iff, ih]
    constructor
    · rintro (⟨t, ht⟩ | ⟨u, v, h⟩)
      · exact ⟨[], t, by simpa using ht⟩
      · exact ⟨a :: u, v, by simp [h]⟩
    · rintro ⟨u, v, h⟩
      cases u with
      | nil => exact Or.inl ⟨v, by simpa using h⟩
      | cons x u =>
        rcases List.cons.injEq x _ a _ ▸ h with h
        simp only [List.cons_append, List.cons.injEq] at h
        exact Or.inr ⟨u, v, h.2⟩

/-! ## C4 and C10: the exclusion check -/

/-- C4: for every exclude list `E` and path `p`, `shouldExclude` returns true
iff some element of `E` occurs as a substring of `p` or `p` begins, as a
string prefix, with one of the default system directories `/proc`, `/sys`,
`/dev`, `/tmp`. -/
theorem shouldExclude_c4 (E : List (List Nat)) (p : List Nat) :
    shouldExclude E p = true ↔
      (∃ e ∈ E, ∃ u v, u ++ e ++ v = p) ∨ (∃ d ∈ sysDirs, ∃ t, d ++ t = p) := by
  simp [shouldExclude, List.any_eq_true, goContains_iff, goStartsWith_iff]

/-- C10: the default system-directory exclusion is a plain string-prefix
test: whatever the exclude list, any path beginning with one of the four
system-directory strings is excluded (hence also `/development/x`, whose
first component is not `/dev` — see the witness). -/
theorem shouldExclude_c10 (E : List (List Nat)) (p : List Nat)
    (h : ∃ d ∈ sysDirs, ∃ t, d ++ t = p) : shouldExclude E p = true := by
  rcases h with ⟨d, hd, t, ht⟩
  have : sysDirs.any (fun dir => goStartsWith p dir) = true := by
    simp only [List.any_eq_true]
    exact ⟨d, hd, (goStartsWith_iff p d).mpr ⟨t, ht⟩⟩
  simp [shouldExclude, this]

/-- Witness for C10: with an empty exclude list, the path `/development/x`
is excluded because it begins with the string `/dev`. -/
theorem shouldExclude_c10_witness :
    shouldExclude [] [47, 100, 101, 118, 101, 108, 111, 112, 109, 101, 110, 116, 47, 120] = true :=
  shouldExclude_c10 [] _
    ⟨[47, 100, 101, 118], by decide,
     [101, 108, 111, 112, 109, 101, 110, 116, 47, 120], rfl⟩

/-! ## C8: size and mtime are no-ops -/

/-- C8: the accept/reject decision of `matches` does not depend on the
`Size` and `Mtime` configuration fields: two configurations differing only
there classify every path identically. -/
theorem matches_c8 (cfg : Config) (s1 s2 m1 m2 : List Nat) (p : List Nat) :
    goMatches { cfg with size := s1, mtime := m1 } p =
      goMatches { cfg with size := s2, mtime := m2 } p := rfl

/-! ## C7: the construction contract of New -/

/-- C7: `New` fails on a nil configuration and on an empty pattern; on a
non-empty pattern it succeeds, and the resulting thread count is positive —
a configured value `≤ 0` is replaced by the (positive) logical CPU count,
and a positive configured value is kept. -/
theorem new_c7 (cfg : Config) (numCPU : Int) (hcpu : 0 < numCPU) :
    goNew none numCPU = Except.error NewError.nilConfig ∧
    (cfg.pattern = [] → goNew (some cfg) numCPU = Except.error NewError.emptyPattern) ∧
    (cfg.pattern ≠ [] →
      ∃ c, goNew (some cfg) numCPU = Except.ok c ∧ 0 < c.threads ∧
        (cfg.threads ≤ 0 → c.threads = numCPU) ∧
        (0 < cfg.threads → c.threads = cfg.threads)) := by
  refine ⟨rfl, ?_, ?_⟩
  · intro hp
    simp [goNew, hp]
  · intro hp
    refine ⟨{ cfg with threads := if cfg.threads ≤ 0 then numCPU else cfg.threads }, ?_, ?_, ?_, ?_⟩
    · simp [goNew, hp]
    · by_cases ht : cfg.threads ≤ 0 <;> simp [ht] <;> omega
    · intro ht; simp [ht]
    · intro ht
      have : ¬ cfg.threads ≤ 0 := by omega
      simp [this]

/-- Witness for C7 at a concrete configuration (pattern `"x"`, threads `0`,
CPU count `4`). -/
theorem new_c7_witness :
    (0 : Int) < 4 ∧
      (goNew none 4 = Except.error NewError.nilConfig ∧
       (sampleConfig.pattern = [] → goNew (some sampleConfig) 4 = Except.error NewError.emptyPattern) ∧
       (sampleConfig.pattern ≠ [] →
         ∃ c, goNew (some sampleConfig) 4 = Except.ok c ∧ 0 < c.threads ∧
           (sampleConfig.threads ≤ 0 → c.threads = 4) ∧
           (0 < sampleConfig.threads → c.threads = sampleConfig.threads))) :=
  ⟨by decide, new_c7 sampleConfig 4 (by decide)⟩

/-! ## C5: the two-attempt glob name check -/

/-- C5: in non-advanced mode the name check accepts exactly when the
case-sensitive `filepath.Match` of the pattern against the filename
succeeds, or — the attempt having failed by non-match or pattern error —
the fully lowered retry succeeds; it rejects exactly when both attempts
fail. -/
theorem nameMatch_c5 (p f : List Nat) :
    (nameMatchBasic p f = true ↔
      (goMatch p f = Except.ok true ∨
        goMatch (mapToLower p) (mapToLower f) = Except.ok true)) ∧
    (goMatch p f = Except.ok true → nameMatchBasic p f = true) := by
  constructor
  · unfold nameMatchBasic
    cases h1 : goMatch p f with
    | ok b =>
      cases b with
      | true => simp [h1]
      | false =>
        cases h2 : goMatch (mapToLower p) (mapToLower f) with
        | ok m => cases m <;> simp [h1, h2]
        | error e => simp [h1, h2]
    | error e =>
      cases h2 : goMatch (mapToLower p) (mapToLower f) with
      | ok m => cases m <;> simp [h1, h2]
      | error e2 => simp [h1, h2]
  · intro h1
    unfold nameMatchBasic
    simp [h1]

/-! ## C6: the depth check -/

/-- C6: for a non-excluded entry, when a positive max depth is configured
the walk callback prunes/skips — exactly as it does for an excluded entry —
precisely when the number of separator characters in the path after
stripping the root prefix exceeds the configured depth; otherwise (and
always when the configured depth is `0` or negative) the decision is left
to `matches` alone. -/
theorem walkStep_c6 (cfg : Config) (root path : List Nat) (isDir : Bool)
    (hx : shouldExclude cfg.exclude path = false) :
    (0 < cfg.depth → cfg.depth < (countChar 47 (goTrimPre path root) : Int) →
      walkStep cfg root path isDir = (if isDir then StepAction.skipDir else StepAction.next)) ∧
    (0 < cfg.depth → (countChar 47 (goTrimPre path root) : Int) ≤ cfg.depth →
      walkStep cfg root path isDir =
        (if goMatches cfg path then StepAction.emit else StepAction.next)) ∧
    (cfg.depth ≤ 0 →
      walkStep cfg root path isDir =
        (if goMatches cfg path then StepAction.emit else StepAction.next)) := by
  refine ⟨?_, ?_, ?_⟩
  · intro h1 h2
    simp [walkStep, hx, h1, h2]
  · intro h1 h2
    have : ¬ cfg.depth < (countChar 47 (goTrimPre path root) : Int) := by omega
    simp [walkStep, hx, h1, this]
  · intro h1
    have : ¬ (0 : Int) < cfg.depth := by omega
    simp [walkStep, hx, this]

/-- Witness for C6: root `/r`, path `/r/a/b` (two separators after the root
prefix is stripped), configured depth 1, not excluded — the callback prunes
the subtree for a directory and skips for a file. -/
theorem walkStep_c6_witness :
    shouldExclude sampleConfig.exclude [47, 114, 47, 97, 47, 98] = false ∧
    (0 < sampleConfig.depth →
      sampleConfig.depth <
        (countChar 47 (goTrimPre [47, 114, 47, 97, 47, 98] [47, 114]) : Int) →
      walkStep sampleConfig [47, 114] [47, 114, 47, 97, 47, 98] true =
        (if true then StepAction.skipDir else StepAction.next)) ∧
    (0 < sampleConfig.depth →
      (countChar 47 (goTrimPre [47, 114, 47, 97, 47, 98] [47, 114]) : Int) ≤ sampleConfig.depth →
      walkStep sampleConfig [47, 114] [47, 114, 47, 97, 47, 98] true =
        (if goMatches sampleConfig [47, 114, 47, 97, 47, 98] then StepAction.emit
         else StepAction.next)) ∧
    (sampleConfig.depth ≤ 0 →
      walkStep sampleConfig [47, 114] [47, 114, 47, 97, 47, 98] true =
        (if goMatches sampleConfig [47, 114, 47, 97, 47, 98] then StepAction.emit
         else StepAction.next)) :=
  ⟨by decide, walkStep_c6 sampleConfig [47, 114] [47, 114, 47, 97, 47, 98] true (by decide)⟩

/-! ## C3: fuzzy matching is greedy subsequence search -/

/-- A successful inner scan splits the text at the first occurrence of the
sought byte. -/
theorem fuzzyFind_decomp {c : Nat} :
    ∀ {l rest : List Nat}, fuzzyFind c l = some rest →
      ∃ pre, l = pre ++ c :: rest ∧ c ∉ pre := by
  intro l
  induction l with
  | nil => intro rest h; simp [fuzzyFind] at h
  | cons b bs ih =>
    intro rest h
    by_cases hb : b = c
    · subst hb
      simp only [fuzzyFind, beq_self_eq_true, if_true, Option.some.injEq] at h
      exact ⟨[], by simp [h], by simp⟩
    · have hbeq : (b == c) = false := by simpa using hb
      simp only [fuzzyFind, hbeq, Bool.false_eq_true, if_false] at h
      rcases ih h with ⟨pre, hdec, hnp⟩
      refine ⟨b :: pre, by simp [hdec], ?_⟩
      intro hm
      rcases List.mem_cons.mp hm with h1 | h1
      · exact hb h1.symm
      · exact hnp h1

/-- The inner scan succeeds whenever the byte occurs in the text. -/
theorem fuzzyFind_mem {c : Nat} :
    ∀ {l : List Nat}, c ∈ l → ∃ rest, fuzzyFind c l = some rest := by
  intro l
  induction l with
  | nil => simp
  | cons b bs ih =>
    intro h
    by_cases hb : b = c
    · exact ⟨bs, by simp [fuzzyFind, hb]⟩
    · have hcb : c ∈ bs := by
        rcases List.mem_cons.mp h with h1 | h1
        · exact absurd h1.symm hb
        · exact h1
      rcases ih hcb with ⟨rest, hr⟩
      exact ⟨rest, by simp [fuzzyFind, hb, hr]⟩

/-- A subsequence starting with `c` embedded in `pre ++ l` with `c ∉ pre`
already embeds in `l`. -/
theorem cons_sublist_drop {c : Nat} {ps : List Nat} :
    ∀ {pre l : List Nat}, c ∉ pre → List.Sublist (c :: ps) (pre ++ l) →
      List.Sublist (c :: ps) l := by
  intro pre
  induction pre with
  | nil => intro l _ h; simpa using h
  | cons d pre ih =>
    intro l hc h
    cases h with
    | cons _ h2 => exact ih (fun hm => hc (List.mem_cons_of_mem d hm)) h2
    | cons₂ _ h2 => exact absurd (List.mem_cons_self _ _) hc

/-- The outer loop of `fuzzyMatch` decides the subsequence relation: greedy
first-occurrence matching is complete for subsequence search. -/
theorem fuzzyLoop_iff_sublist :
    ∀ (p text : List Nat), fuzzyLoop text p = true ↔ List.Sublist p text := by
  intro p
  induction p with
  | nil => intro text; simp [fuzzyLoop, List.nil_sublist]
  | cons c ps ih =>
    intro text
    constructor
    · intro h
      cases hf : fuzzyFind c text with
      | none => rw [fuzzyLoop, hf] at h; exact absurd h (by simp)
      | some rest =>
        rw [fuzzyLoop, hf] at h
        rcases fuzzyFind_decomp hf with ⟨pre, hdec, _⟩
        have hps : List.Sublist ps rest := (ih rest).mp h
        have h2 : List.Sublist (c :: ps) (pre ++ c :: rest) :=
          (hps.cons₂ c).trans (List.sublist_append_right pre (c :: rest))
        rw [hdec]
        exact h2
    · intro h
      have hmem : c ∈ text := h.subset (List.mem_cons_self c ps)
      rcases fuzzyFind_mem hmem with ⟨rest, hf⟩
      rcases fuzzyFind_decomp hf with ⟨pre, hdec, hnp⟩
      have h2 : List.Sublist (c :: ps) (c :: rest) := cons_sublist_drop hnp (hdec ▸ h)
      have hps : List.Sublist ps rest := (List.cons_sublist_cons).mp h2
      rw [fuzzyLoop, hf]
      exact (ih rest).mpr hps

/-- The guards at the top of `fuzzyMatch` agree with the loop itself. -/
theorem fuzzyMatch_eq_loop (text p : List Nat) : fuzzyMatch text p = fuzzyLoop text p := by
  unfold fuzzyMatch
  by_cases hp : p = []
  · subst hp; simp [fuzzyLoop]
  · by_cases ht : text = []
    · subst ht
      cases p with
      | nil => exact absurd rfl hp
      | cons c ps => simp [hp, fuzzyLoop, fuzzyFind]
    · simp [hp, ht]

/-- ASCII code points stay ASCII under the case mapping. -/
theorem toLowerRune_lt {c : Nat} (h : c < 128) : toLowerRune c < 128 := by
  unfold toLowerRune
  split <;> omega

/-- Lowering an ASCII string keeps it ASCII. -/
theorem mapToLower_ascii {l : List Nat} (h : ∀ c ∈ l, c < 128) :
    ∀ c ∈ mapToLower l, c < 128 := by
  intro c hc
  rcases List.mem_map.mp hc with ⟨a, ha, rfl⟩
  exact toLowerRune_lt (h a ha)

/-- ASCII code points are their own UTF-8 encoding. -/
theorem utf8EncodeChar_ascii {c : Nat} (h : c < 128) : utf8EncodeChar c = [c] := by
  unfold utf8EncodeChar
  simp [h]

/-- An all-ASCII string reads the same as runes and as bytes. -/
theorem utf8Encode_ascii : ∀ {l : List Nat}, (∀ c ∈ l, c < 128) → utf8Encode l = l := by
  intro l
  induction l with
  | nil => intro _; rfl
  | cons c rest ih =>
    intro h
    have hc := h c (List.mem_cons_self c rest)
    simp [utf8Encode, utf8EncodeChar_ascii hc,
      ih (fun d hd => h d (List.mem_cons_of_mem c hd))]

/-- C3 (amended to all-ASCII inputs): for ASCII patterns and filenames the
advanced-mode fuzzy match returns true iff the lowered pattern is a
subsequence of the lowered filename; an empty pattern matches everything
and a non-empty pattern never matches an empty filename.  (For non-ASCII
inputs the equivalence fails — see the counterexample.) -/
theorem fuzzy_c3_ascii (p f : List Nat) (hp : ∀ c ∈ p, c < 128) (hf : ∀ c ∈ f, c < 128) :
    (advancedNameMatch p f = true ↔ List.Sublist (mapToLower p) (mapToLower f)) ∧
    (p = [] → advancedNameMatch p f = true) ∧
    (p ≠ [] → f = [] → advancedNameMatch p f = false) := by
  have henc : utf8Encode (mapToLower f) = mapToLower f :=
    utf8Encode_ascii (mapToLower_ascii hf)
  refine ⟨?_, ?_, ?_⟩
  · rw [advancedNameMatch, henc, fuzzyMatch_eq_loop, fuzzyLoop_iff_sublist]
  · rintro rfl; rfl
  · intro hp0 hf0
    subst hf0
    have hlp : mapToLower p ≠ [] := by simpa [mapToLower] using hp0
    simp [advancedNameMatch, mapToLower, utf8Encode, fuzzyMatch, hlp, hp0]

/-- Witness for the amended C3 at pattern `"M"` and filename `"am"`. -/
theorem fuzzy_c3_ascii_witness :
    (∀ c ∈ [77], c < 128) ∧ (∀ c ∈ [97, 109], c < 128) ∧
      ((advancedNameMatch [77] [97, 109] = true ↔
          List.Sublist (mapToLower [77]) (mapToLower [97, 109])) ∧
        ([77] = ([] : List Nat) → advancedNameMatch [77] [97, 109] = true) ∧
        ([77] ≠ ([] : List Nat) → [97, 109] = ([] : List Nat) →
          advancedNameMatch [77] [97, 109] = false)) :=
  ⟨by decide, by decide, fuzzy_c3_ascii [77] [97, 109] (by decide) (by decide)⟩

/-- C3 counterexample: with pattern and filename both `"é"` (code point 233,
UTF-8 bytes `0xC3 0xA9`) the advanced-mode match returns false, yet the
pattern is literally equal to — so certainly a case-insensitive subsequence
of — the filename.  `fuzzyMatch` ranges over the pattern's runes but indexes
the text's bytes, so a multi-byte character never matches. -/
theorem fuzzy_c3_counterexample :
    advancedNameMatch [233] [233] = false ∧
      List.Sublist (mapToLower [233]) (mapToLower [233]) :=
  ⟨by decide, List.Sublist.refl _⟩

/-! ## C1, C2, C9: the Search engine -/

/-- A concrete search result used by the engine witnesses. -/
def sampleResult : Result :=
  { path := [47, 97], size := 0, modTime := 0, isDir := false, mode := [] }

/-- Every engine step preserves the collector's length bound, and the bound
on whatever list `Search` has returned. -/
theorem engine_inv_step {maxR : Int} {s t : EngineState} (h : EStep maxR s t)
    (h1 : s.results.length ≤ maxR.toNat)
    (h2 : ∀ l, s.ret = some l → l.length ≤ maxR.toNat) :
    t.results.length ≤ maxR.toNat ∧ ∀ l, t.ret = some l → l.length ≤ maxR.toNat := by
  cases h with
  | submit i r rest hw hbuf => exact ⟨h1, h2⟩
  | recv r rest hb =>
    refine ⟨?_, h2⟩
    show (if (s.results.length : Int) < maxR then s.results ++ [r] else s.results).length ≤
      maxR.toNat
    by_cases hlt : (s.results.length : Int) < maxR
    · rw [if_pos hlt, List.length_append]
      simp only [List.length_cons, List.length_nil]
      omega
    · rw [if_neg hlt]
      exact h1
  | close hw hcl => exact ⟨h1, h2⟩
  | ret hcl hr =>
    refine ⟨h1, ?_⟩
    intro l hl
    have hsl : s.results = l := by simpa using hl
    rw [← hsl]
    exact h1

/-- The length bound holds in every reachable state. -/
theorem engine_inv_reach {maxR : Int} {ws : List (List Result)} {s : EngineState}
    (h : EReach maxR (initState ws) s) :
    s.results.length ≤ maxR.toNat ∧ ∀ l, s.ret = some l → l.length ≤ maxR.toNat := by
  unfold EReach at h
  induction h with
  | refl => exact ⟨by simp [initState], by simp [initState]⟩
  | tail hab hbc ih => exact engine_inv_step hbc ih.1 ih.2

/-- C1: whatever the workers submit, any list returned by `Search` has at
most `MaxResults` entries (as a count of entries: at most `MaxResults.toNat`,
which equals `MaxResults` whenever that field is non-negative); the
collector discards every submission arriving once the list is full. -/
theorem search_c1_max_results (maxR : Int) (ws : List (List Result))
    (s : EngineState) (out : List Result)
    (h : EReach maxR (initState ws) s) (hret : s.ret = some out) :
    out.length ≤ maxR.toNat :=
  (engine_inv_reach h).2 out hret

/-- Witness for C1: one worker submits one result under `MaxResults = 1`;
the run submit → receive → close → return yields a returned list of length
1 ≤ 1. -/
theorem search_c1_max_results_witness : List.length [sampleResult] ≤ (1 : Int).toNat :=
  search_c1_max_results 1 [[sampleResult]]
    { workers := [[]], buf := [], closed := true, results := [sampleResult], ret := some [sampleResult] }
    [sampleResult]
    (Relation.ReflTransGen.head
      (EStep.submit (initState [[sampleResult]]) 0 sampleResult [] rfl (by decide))
      (Relation.ReflTransGen.head
        (EStep.recv { workers := [[]], buf := [sampleResult], closed := false, results := [], ret := none } sampleResult [] rfl)
        (Relation.ReflTransGen.head
          (EStep.close { workers := [[]], buf := [], closed := false, results := [sampleResult], ret := none } (by decide) rfl)
          (Relation.ReflTransGen.head
            (EStep.ret { workers := [[]], buf := [], closed := true, results := [sampleResult], ret := none } rfl rfl)
            Relation.ReflTransGen.refl))))
    rfl

/-- With non-positive `MaxResults` the collector never appends, so the list
stays empty across every step. -/
theorem engine_empty_step {maxR : Int} (hm : maxR ≤ 0) {s t : EngineState}
    (h : EStep maxR s t) (h1 : s.results = [])
    (h2 : ∀ l, s.ret = some l → l = []) :
    t.results = [] ∧ ∀ l, t.ret = some l → l = [] := by
  cases h with
  | submit i r rest hw hbuf => exact ⟨h1, h2⟩
  | recv r rest hb =>
    refine ⟨?_, h2⟩
    show (if (s.results.length : Int) < maxR then s.results ++ [r] else s.results) = []
    have hnlt : ¬ (s.results.length : Int) < maxR := by
      rw [h1]
      simp only [List.length_nil, Nat.cast_zero]
      omega
    rw [if_neg hnlt]
    exact h1
  | close hw hcl => exact ⟨h1, h2⟩
  | ret hcl hr =>
    refine ⟨h1, ?_⟩
    intro l hl
    have hsl : s.results = l := by simpa using hl
    rw [← hsl]
    exact h1

/-- Emptiness of the collector's list holds in every reachable state. -/
theorem engine_empty_reach {maxR : Int} (hm : maxR ≤ 0) {ws : List (List Result)}
    {s : EngineState} (h : EReach maxR (initState ws) s) :
    s.results = [] ∧ ∀ l, s.ret = some l → l = [] := by
  unfold EReach at h
  induction h with
  | refl => exact ⟨rfl, by simp [initState]⟩
  | tail hab hbc ih => exact engine_empty_step hm hbc ih.1 ih.2

/-- C9: with `MaxResults ≤ 0` — including the zero value — `Search` returns
the empty list even when matching results are submitted, because the
collector appends only while the list is strictly shorter than
`MaxResults`; `0` does not mean unlimited. -/
theorem search_c9_nonpositive (maxR : Int) (hm : maxR ≤ 0) (ws : List (List Result))
    (s : EngineState) (out : List Result)
    (h : EReach maxR (initState ws) s) (hret : s.ret = some out) : out = [] :=
  (engine_empty_reach hm h).2 out hret

/-- Witness for C9: one worker submits one result under `MaxResults = 0`;
the result is received and dropped and `Search` returns the empty list. -/
theorem search_c9_nonpositive_witness : (0 : Int) ≤ 0 ∧ ([] : List Result) = [] :=
  ⟨le_refl 0,
    search_c9_nonpositive 0 (le_refl 0) [[sampleResult]]
      { workers := [[]], buf := [], closed := true, results := [], ret := some [] }
      []
      (Relation.ReflTransGen.head
        (EStep.submit (initState [[sampleResult]]) 0 sampleResult [] rfl (by decide))
        (Relation.ReflTransGen.head
          (EStep.recv { workers := [[]], buf := [sampleResult], closed := false, results := [], ret := none } sampleResult [] rfl)
          (Relation.ReflTransGen.head
            (EStep.close { workers := [[]], buf := [], closed := false, results := [], ret := none } (by decide) rfl)
            (Relation.ReflTransGen.head
              (EStep.ret { workers := [[]], buf := [], closed := true, results := [], ret := none } rfl rfl)
              Relation.ReflTransGen.refl))))
      rfl⟩

/-- The state exhibiting the C2 violation: the channel is closed, `Search`
has returned the empty list, and the one submitted result is still sitting
unread in the channel buffer. -/
def lostStateC2 : EngineState :=
  { workers := [[]], buf := [sampleResult], closed := true, results := [], ret := some [] }

/-- C2 fails on the code: `Search` closes the channel after `wg.Wait()` but
returns `results` immediately, with nothing making it wait for the collector
to finish draining.  The run submit → close → return (collector never
scheduled) is therefore possible, reaching a state where `Search` has
returned the empty list although a result was submitted before the close
and is still in the buffer — with `MaxResults = 10`, so not a capacity
artifact. -/
theorem search_c2_lost_result :
    EReach 10 (initState [[sampleResult]]) lostStateC2 ∧
      lostStateC2.ret = some [] ∧ lostStateC2.buf = [sampleResult] :=
  ⟨Relation.ReflTransGen.head
      (EStep.submit (initState [[sampleResult]]) 0 sampleResult [] rfl (by decide))
      (Relation.ReflTransGen.head
        (EStep.close { workers := [[]], buf := [sampleResult], closed := false, results := [], ret := none } (by decide) rfl)
        (Relation.ReflTransGen.head
          (EStep.ret { workers := [[]], buf := [sampleResult], closed := true, results := [], ret := none } rfl rfl)
          Relation.ReflTransGen.refl)),
    rfl, rfl⟩

end GoLocate

